import Mathlib

/-!
Verification of the box-management frontend's search-and-identity core
(`src/frontend/src/App.jsx`).  Strings are modelled as `List Char`; JS
string primitives (`includes`, `split`, `toLowerCase`, `parseInt`) are
translated as executable Lean functions on character lists.  The Fuse.js
fuzzy matcher is a library dependency whose source is not part of the
repository; it is modelled from the specification (see `fuseSearch`).
-/

/-- Coerce a string literal to the character-list representation used
throughout this development. -/
def str (s : String) : List Char := s.toList

/-- ASCII model of JavaScript `toLowerCase` (character-wise lowering). -/
def toLowerL (s : List Char) : List Char := s.map Char.toLower

/-- Boolean test that `p` is a prefix of `s` (character lists). -/
def isPrefixL : List Char → List Char → Bool
  | [], _ => true
  | _ :: _, [] => false
  | a :: as, b :: bs => a = b && isPrefixL as bs

/-- Index of the first occurrence of `sep` in `s` (JS `indexOf`):
the least `i` such that `sep` is a prefix of `s.drop i`. -/
def firstOcc (sep : List Char) : List Char → Option Nat
  | [] => if isPrefixL sep [] then some 0 else none
  | c :: rest =>
    if isPrefixL sep (c :: rest) then some 0
    else (firstOcc sep rest).map (· + 1)

/-- JS `String.prototype.includes`: whether `sep` occurs in `s`
(`indexOf(sep) >= 0`). -/
def containsL (sep s : List Char) : Bool := (firstOcc sep s).isSome

/-- Fuel-driven worker for `splitOnL`; the fuel is an upper bound on the
number of separator occurrences, so the definition is structural and the
kernel can evaluate it. -/
def splitGo (sep : List Char) : Nat → List Char → List (List Char)
  | 0, s => [s]
  | fuel + 1, s =>
    match firstOcc sep s with
    | none => [s]
    | some i => s.take i :: splitGo sep fuel (s.drop (i + sep.length))

/-- JS `String.prototype.split` on a plain (non-regex) separator:
left-to-right, non-overlapping.  Intended for non-empty separators. -/
def splitOnL (sep s : List Char) : List (List Char) := splitGo sep s.length s

/-- The fixed path marker of the box locator template. -/
def boxMarker : List Char := str r"/box/"

/-- Translation of the locator construction in `generateQRCode`
(App.jsx:689): the string rendered into the QR payload is
`window.location.origin + "/box/" + box.id`. -/
def generateQRCodeUrl (id origin : List Char) : List Char :=
  origin ++ boxMarker ++ id

/-- Decimal digit test, `[0-9]`. -/
def isDigit10 (c : Char) : Bool := '0' ≤ c && c ≤ '9'

/-- Case-insensitive hexadecimal digit test, `[0-9a-f]` with the `i` flag. -/
def isHexDigit (c : Char) : Bool :=
  ('0' ≤ c && c ≤ '9') || ('a' ≤ c && c ≤ 'f') || ('A' ≤ c && c ≤ 'F')

/-- Consume exactly `n` hexadecimal digits, returning the remainder. -/
def hexChunk : Nat → List Char → Option (List Char)
  | 0, s => some s
  | _ + 1, [] => none
  | n + 1, c :: s => if isHexDigit c then hexChunk n s else none

/-- Consume one expected character, returning the remainder. -/
def expectChar (c : Char) : List Char → Option (List Char)
  | [] => none
  | d :: s => if d = c then some s else none

/-- Translation of the anchored identifier regex in `onScanSuccess`
(App.jsx:785): `/^[0-9a-f]{8}-[0-9a-f]{4}-[0-9a-f]{4}-[0-9a-f]{4}-[0-9a-f]{12}$/i`. -/
def isUUID (s : List Char) : Bool :=
  ((((((((hexChunk 8 s).bind (expectChar '-')).bind (hexChunk 4)).bind
      (expectChar '-')).bind (hexChunk 4)).bind (expectChar '-')).bind
      (hexChunk 4)).bind (expectChar '-')).bind (hexChunk 12) == some []

/-- Observable effect of one invocation of the scan handler: the route
navigated to (if any) and whether the scanner dialog was closed. -/
structure ScanEffect where
  nav : Option (List Char)
  close : Bool
deriving DecidableEq

/-- Translation of `onScanSuccess` (App.jsx:780-790).  If the scanned text
contains `/box/`, the handler navigates to element 1 of
`decodedText.split('/box/')`; otherwise, if the whole text matches the
identifier regex, it navigates to the text itself; otherwise it does not
navigate.  `onClose()` runs unconditionally, so `close` is always true. -/
def onScanSuccess (decodedText : List Char) : ScanEffect :=
  if containsL boxMarker decodedText then
    { nav := some ((splitOnL boxMarker decodedText).getD 1 []), close := true }
  else if isUUID decodedText then
    { nav := some decodedText, close := true }
  else
    { nav := none, close := true }

/-- The decode outcome of the identity codec: the box identifier the scan
handler navigates to, or `none` for the rejection outcome. -/
def decodeScan (decodedText : List Char) : Option (List Char) :=
  (onScanSuccess decodedText).nav

/-- Substring strictly between the first occurrence of `sep` and the next
(non-overlapping) occurrence after it, or the whole remainder when `sep`
occurs only once; `none` when `sep` does not occur.  This is the
occurrence-based description of split-then-index-1 that claim C9 asserts. -/
def extractBetween (sep s : List Char) : Option (List Char) :=
  match firstOcc sep s with
  | none => none
  | some i =>
    match firstOcc sep (s.drop (i + sep.length)) with
    | none => some (s.drop (i + sep.length))
    | some j => some ((s.drop (i + sep.length)).take j)

/-- Modelled from the spec: the lexical shape of a `window.location.origin`
value (the origin locator supplied to encode) — a non-empty scheme of
letters, the literal `://`, then a non-empty authority containing no
slash.  The repository contains no code for this; the shape is taken from
the spec's phrase "the supplied origin/host locator". -/
def windowOriginShape (s : List Char) : Bool :=
  match firstOcc (str r"://") s with
  | none => false
  | some i =>
    decide (0 < i) &&
    (s.take i).all (fun c => ('a' ≤ c && c ≤ 'z') || ('A' ≤ c && c ≤ 'Z')) &&
    decide (i + 3 < s.length) &&
    (s.drop (i + 3)).all (fun c => c ≠ '/')

/-- JS RegExp metacharacters.  `highlightMatch` interpolates the raw query
into a pattern, so any of these changes the pattern's meaning. -/
def regexMeta (c : Char) : Bool :=
  c = '\\' || c = '^' || c = '$' || c = '.' || c = '*' || c = '+' ||
  c = '?' || c = '(' || c = ')' || c = '[' || c = ']' ||
  c = '\x7b' || c = '\x7d' || c = '|'

/-- Whether the interpolated pattern `(` ++ `search` ++ `)` is a literal
matcher: no character of `search` is a regex metacharacter. -/
def regexLiteral (s : List Char) : Bool := s.all (fun c => !(regexMeta c))

/-- Case-insensitive first occurrence: `toLowerL` preserves positions, so
this is `firstOcc` on the lowered strings. -/
def firstOccCI (sep s : List Char) : Option Nat :=
  firstOcc (toLowerL sep) (toLowerL s)

/-- Fuel-driven worker for `splitCaptureCI` (structural, kernel-evaluable). -/
def splitCapGo (sep : List Char) : Nat → List Char → List (List Char)
  | 0, s => [s]
  | fuel + 1, s =>
    match firstOccCI sep s with
    | none => [s]
    | some i =>
      s.take i :: (s.drop i).take sep.length ::
        splitCapGo sep fuel (s.drop (i + sep.length))

/-- JS `text.split(re)` where `re` is a case-insensitive literal pattern
wrapped in one capturing group: the separators (in the text's original
casing) are kept in the output between the ordinary pieces, including
empty boundary pieces. -/
def splitCaptureCI (sep s : List Char) : List (List Char) :=
  splitCapGo sep s.length s

/-- Translation of `highlightMatch` (App.jsx:835-842).  The source builds
`new RegExp('(' + search + ')', 'gi')` from the raw query, splits `text`
on it, and marks a part exactly when `part.toLowerCase() ===
search.toLowerCase()`.  For an empty `search` it returns `text` as is
(one unmatched segment).  The model covers the literal fragment: when
`search` contains a regex metacharacter the constructed pattern is not a
literal matcher (for unbalanced input such as a lone parenthesis the
RegExp constructor throws), and the model marks that boundary of the
translation with `.error`. -/
def highlightMatch (text search : List Char) :
    Except Unit (List (List Char × Bool)) :=
  if search.isEmpty then .ok [(text, false)]
  else if regexLiteral search then
    .ok ((splitCaptureCI search text).map
      (fun p => (p, toLowerL p == toLowerL search)))
  else .error ()

/-- Box record as consumed by the list view (persistence-owned fields that
the search core reads). -/
structure Box where
  id : List Char
  name : List Char
  location : Option (List Char)
  description : Option (List Char)
deriving DecidableEq

/-- Item record as consumed by the box-detail view. -/
structure Item where
  id : List Char
  box_id : List Char
  name : List Char
  quantity : Int
  details : Option (List Char)
deriving DecidableEq

/-- Fuel-driven Levenshtein distance; the fuel (sum of the lengths) bounds
the recursion depth, so the definition is structural and kernel-evaluable. -/
def levF : Nat → List Char → List Char → Nat
  | 0, a, b => a.length + b.length
  | _ + 1, [], b => b.length
  | _ + 1, a :: as, [] => (a :: as).length
  | fuel + 1, a :: as, b :: bs =>
    if a = b then levF fuel as bs
    else 1 + min (levF fuel as bs)
      (min (levF fuel (a :: as) bs) (levF fuel as (b :: bs)))

/-- Levenshtein edit distance between two character lists. -/
def lev (a b : List Char) : Nat := levF (a.length + b.length) a b

/-- Modelled from the spec: per-field dissimilarity score of the fuzzy
matcher (Fuse.js is a dependency whose source is not in the repository).
Per the spec, each field is compared to the query by an edit-distance
derived similarity on the 0-to-1 scale (0 = perfect match); the model
uses the case-insensitive Levenshtein distance normalised by the longer
length. -/
def fieldScore (q f : List Char) : ℚ :=
  mkRat (lev (toLowerL q) (toLowerL f)) (max q.length f.length)

/-- Modelled from the spec: a record's score is the best (lowest) score of
its eligible fields (the code configures no per-field weights, so all
present fields count equally); absent optional fields are skipped. -/
def recScore {α : Type} (fields : List (α → Option (List Char)))
    (q : List Char) (r : α) : ℚ :=
  (fields.filterMap (fun f => f r)).foldr (fun v acc => min (fieldScore q v) acc) 1

/-- One scored candidate: the record, its original collection position,
and its dissimilarity score. -/
structure Scored (α : Type) where
  item : α
  idx : Nat
  score : ℚ

/-- Score every record of the collection, remembering original positions. -/
def scoreList {α : Type} (fields : List (α → Option (List Char)))
    (q : List Char) : Nat → List α → List (Scored α)
  | _, [] => []
  | i, r :: rs => ⟨r, i, recScore fields q r⟩ :: scoreList fields q (i + 1) rs

/-- Result order of the matcher: ascending score, ties broken by the
record's original collection position. -/
def scoredLE {α : Type} (a b : Scored α) : Prop :=
  a.score < b.score ∨ (a.score = b.score ∧ a.idx ≤ b.idx)

instance {α : Type} : DecidableRel (@scoredLE α) :=
  fun _ _ => inferInstanceAs (Decidable (_ ∨ _))

instance {α : Type} : IsTotal (Scored α) scoredLE where
  total a b := by
    rcases lt_trichotomy a.score b.score with h | h | h
    · exact Or.inl (Or.inl h)
    · rcases Nat.le_total a.idx b.idx with h2 | h2
      · exact Or.inl (Or.inr ⟨h, h2⟩)
      · exact Or.inr (Or.inr ⟨h.symm, h2⟩)
    · exact Or.inr (Or.inl h)

instance {α : Type} : IsTrans (Scored α) scoredLE where
  trans a b c hab hbc := by
    rcases hab with h1 | ⟨h1, h1i⟩ <;> rcases hbc with h2 | ⟨h2, h2i⟩
    · exact Or.inl (h1.trans h2)
    · exact Or.inl (h2 ▸ h1)
    · exact Or.inl (h1 ▸ h2)
    · exact Or.inr ⟨h1.trans h2, h1i.trans h2i⟩

/-- Modelled from the spec: the matcher (`fuse.search`).  Candidates whose
score does not exceed the configured threshold are kept, ordered ascending
by score with ties broken by original position (stable, deterministic). -/
def fuseSearch {α : Type} (fields : List (α → Option (List Char)))
    (threshold : ℚ) (q : List Char) (recs : List α) : List (Scored α) :=
  List.insertionSort scoredLE
    ((scoreList fields q 0 recs).filter (fun e => decide (e.score ≤ threshold)))

/-- Field configuration of the box collection (`keys: ['name', 'location',
'description']`, App.jsx:90). -/
def boxFields : List (Box → Option (List Char)) :=
  [fun b => some b.name, fun b => b.location, fun b => b.description]

/-- Field configuration of the item collection (`keys: ['name', 'details']`,
App.jsx:279). -/
def itemFields : List (Item → Option (List Char)) :=
  [fun it => some it.name, fun it => it.details]

/-- Translation of the search stage of `filterBoxes` (App.jsx:85-95): a
truthy (non-empty) search term runs the fuzzy matcher with threshold 0.4
over name/location/description and keeps the matched items in rank order;
an empty term leaves the collection unchanged. -/
def searchStage (boxes : List Box) (searchTerm : List Char) : List Box :=
  if searchTerm.isEmpty then boxes
  else (fuseSearch boxFields (mkRat 2 5) searchTerm boxes).map (fun e => e.item)

/-- Truthiness of the optional-chained location test in `filterBoxes`
(App.jsx:98-100): `box.location?.toLowerCase().includes(filter.toLowerCase())`
is falsy when `location` is absent. -/
def locMatches (b : Box) (locationFilter : List Char) : Bool :=
  match b.location with
  | none => false
  | some l => containsL (toLowerL locationFilter) (toLowerL l)

/-- Translation of `filterBoxes` (App.jsx:85-104): the fuzzy search stage
followed, when the location filter is truthy (non-empty), by the
case-insensitive location filter. -/
def filterBoxes (boxes : List Box) (searchTerm locationFilter : List Char) :
    List Box :=
  let filtered := searchStage boxes searchTerm
  if locationFilter.isEmpty then filtered
  else filtered.filter (fun b => locMatches b locationFilter)

/-- Translation of `filterItems` (App.jsx:272-284): an empty (falsy) search
term returns the items unchanged; otherwise the fuzzy matcher runs with
threshold 0.4 over name/details. -/
def filterItems (items : List Item) (searchTerm : List Char) : List Item :=
  if searchTerm.isEmpty then items
  else (fuseSearch itemFields (mkRat 2 5) searchTerm items).map (fun e => e.item)

/-- JS whitespace characters skipped by `parseInt`. -/
def isJsSpace (c : Char) : Bool :=
  c = ' ' || c = '\t' || c = '\n' || c = '\r'

/-- Numeric value of a decimal digit list (most significant first). -/
def digitsToNat (ds : List Char) : Nat :=
  ds.foldl (fun acc c => acc * 10 + (c.toNat - 48)) 0

/-- Numeric value of a hexadecimal digit list (most significant first). -/
def hexDigitsToNat (ds : List Char) : Nat :=
  ds.foldl (fun acc c =>
    acc * 16 +
      (if c ≤ '9' then c.toNat - 48
       else if c ≤ 'F' then c.toNat - 55
       else c.toNat - 87)) 0

/-- Model of JS `parseInt(s)` with no radix argument: skip leading
whitespace, read an optional sign, then either a `0x`/`0X` hexadecimal
prefix or the longest run of decimal digits; `none` models `NaN`. -/
def jsParseInt (s : List Char) : Option Int :=
  let t := s.dropWhile isJsSpace
  let sgn : Int := match t.head? with | some '-' => -1 | _ => 1
  let t2 := match t with
    | '-' :: r => r
    | '+' :: r => r
    | r => r
  match t2 with
  | '0' :: 'x' :: r =>
    let ds := r.takeWhile isHexDigit
    if ds.isEmpty then none else some (sgn * (hexDigitsToNat ds : Int))
  | '0' :: 'X' :: r =>
    let ds := r.takeWhile isHexDigit
    if ds.isEmpty then none else some (sgn * (hexDigitsToNat ds : Int))
  | _ =>
    let ds := t2.takeWhile isDigit10
    if ds.isEmpty then none else some (sgn * (digitsToNat ds : Int))

/-- Quantity stored by the add-item modal's change handler (App.jsx:647):
`parseInt(e.target.value) || 1`, so `NaN` and `0` (both falsy) fall back
to 1 while any other parsed value — including negatives — is kept. -/
def addItemQuantity (s : List Char) : Int :=
  match jsParseInt s with
  | none => 1
  | some n => if n = 0 then 1 else n

/-- Quantity sent by the inline-edit save handler (App.jsx:494):
`parseInt(document.getElementById(...).value)` with no fallback; `none`
models the `NaN` sent when the field is not a number. -/
def updateItemQuantity (s : List Char) : Option Int := jsParseInt s

theorem isPrefixL_length {p s : List Char} (h : isPrefixL p s = true) :
    p.length ≤ s.length := by
  induction p generalizing s with
  | nil => simp
  | cons a as ih =>
    cases s with
    | nil => simp [isPrefixL] at h
    | cons b bs =>
      simp only [isPrefixL, Bool.and_eq_true] at h
      simpa [List.length_cons] using ih h.2

theorem isPrefixL_append_self (p t : List Char) :
    isPrefixL p (p ++ t) = true := by
  induction p with
  | nil => rfl
  | cons a as ih => simp [isPrefixL, ih]

theorem isPrefixL_nil_false {p : List Char} (h : p ≠ []) :
    isPrefixL p [] = false := by
  cases p with
  | nil => exact absurd rfl h
  | cons a as => rfl

theorem isPrefixL_append_left {p u v : List Char}
    (h : isPrefixL p (u ++ v) = true) (hl : p.length ≤ u.length) :
    isPrefixL p u = true := by
  induction p generalizing u with
  | nil => rfl
  | cons a as ih =>
    cases u with
    | nil => simp at hl
    | cons b bs =>
      simp only [List.cons_append, isPrefixL, Bool.and_eq_true] at h ⊢
      exact ⟨h.1, ih h.2 (by simpa using hl)⟩

theorem firstOcc_mem {sep s : List Char} {i : Nat}
    (h : firstOcc sep s = some i) : isPrefixL sep (s.drop i) = true := by
  induction s generalizing i with
  | nil =>
    simp only [firstOcc] at h
    split at h
    · cases h; simpa using ‹isPrefixL sep [] = true›
    · exact absurd h (by simp)
  | cons c rest ih =>
    simp only [firstOcc] at h
    split at h
    · cases h; simpa using ‹isPrefixL sep (c :: rest) = true›
    · cases hr : firstOcc sep rest with
      | none => rw [hr] at h; exact absurd h (by simp)
      | some k =>
        rw [hr] at h
        simp only [Option.map_some', Option.some.injEq] at h
        subst h
        simpa using ih hr

theorem firstOcc_le {sep s : List Char} {i : Nat}
    (h : firstOcc sep s = some i) : i ≤ s.length := by
  induction s generalizing i with
  | nil =>
    simp only [firstOcc] at h
    split at h
    · cases h; simp
    · exact absurd h (by simp)
  | cons c rest ih =>
    simp only [firstOcc] at h
    split at h
    · cases h; simp
    · cases hr : firstOcc sep rest with
      | none => rw [hr] at h; exact absurd h (by simp)
      | some k =>
        rw [hr] at h
        simp only [Option.map_some', Option.some.injEq] at h
        subst h
        simpa using ih hr

theorem firstOcc_min {sep s : List Char} {i : Nat}
    (h : firstOcc sep s = some i) :
    ∀ j, j < i → isPrefixL sep (s.drop j) = false := by
  induction s generalizing i with
  | nil =>
    intro j hj
    simp only [firstOcc] at h
    split at h
    · cases h; omega
    · exact absurd h (by simp)
  | cons c rest ih =>
    intro j hj
    simp only [firstOcc] at h
    split at h
    · cases h; omega
    · cases hr : firstOcc sep rest with
      | none => rw [hr] at h; exact absurd h (by simp)
      | some k =>
        rw [hr] at h
        simp only [Option.map_some', Option.some.injEq] at h
        subst h
        cases j with
        | zero =>
          simpa using Bool.of_not_eq_true ‹¬ isPrefixL sep (c :: rest) = true›
        | succ j2 => simpa using ih hr j2 (by omega)

theorem firstOcc_none_all {sep s : List Char}
    (h : firstOcc sep s = none) :
    ∀ j, isPrefixL sep (s.drop j) = false := by
  induction s with
  | nil =>
    intro j
    simp only [firstOcc] at h
    split at h
    · exact absurd h (by simp)
    · simpa using Bool.of_not_eq_true ‹¬ isPrefixL sep [] = true›
  | cons c rest ih =>
    intro j
    simp only [firstOcc] at h
    split at h
    · exact absurd h (by simp)
    · cases hr : firstOcc sep rest with
      | some k => rw [hr] at h; exact absurd h (by simp)
      | none =>
        cases j with
        | zero =>
          simpa using Bool.of_not_eq_true ‹¬ isPrefixL sep (c :: rest) = true›
        | succ j2 => simpa using ih hr j2

theorem firstOcc_isSome_of_pfx {sep s : List Char} {j : Nat}
    (h : isPrefixL sep (s.drop j) = true) :
    (firstOcc sep s).isSome = true := by
  cases hf : firstOcc sep s with
  | some i => rfl
  | none => rw [firstOcc_none_all hf j] at h; cases h

theorem firstOcc_eq_some_of {sep s : List Char} {i : Nat}
    (hp : isPrefixL sep (s.drop i) = true)
    (hmin : ∀ j, j < i → isPrefixL sep (s.drop j) = false) :
    firstOcc sep s = some i := by
  induction s generalizing i with
  | nil =>
    cases i with
    | zero => simp only [List.drop_nil] at hp; simp [firstOcc, hp]
    | succ k =>
      have h0 := hmin 0 (by omega)
      simp only [List.drop_nil] at hp h0
      rw [h0] at hp; cases hp
  | cons c rest ih =>
    cases i with
    | zero => simp only [List.drop_zero] at hp; simp [firstOcc, hp]
    | succ k =>
      have h0 := hmin 0 (by omega)
      simp only [List.drop_zero] at h0
      have hk : firstOcc sep rest = some k := by
        apply ih (by simpa using hp)
        intro j hj
        simpa using hmin (j + 1) (by omega)
      simp [firstOcc, h0, hk]

theorem firstOcc_some_le {sep s : List Char} {i : Nat}
    (h : firstOcc sep s = some i) : i + sep.length ≤ s.length := by
  have h1 := isPrefixL_length (firstOcc_mem h)
  have h2 := firstOcc_le h
  rw [List.length_drop] at h1
  omega

theorem splitGo_congr {sep : List Char} (hsep : sep ≠ []) :
    ∀ f g s, s.length ≤ f → s.length ≤ g → splitGo sep f s = splitGo sep g s := by
  intro f
  induction f with
  | zero =>
    intro g s hf _
    have hs : s = [] := List.length_eq_zero.mp (by omega)
    subst hs
    cases g with
    | zero => rfl
    | succ m =>
      simp [splitGo, firstOcc, isPrefixL_nil_false hsep]
  | succ k ih =>
    intro g s hf hg
    cases g with
    | zero =>
      have hs : s = [] := List.length_eq_zero.mp (by omega)
      subst hs
      simp [splitGo, firstOcc, isPrefixL_nil_false hsep]
    | succ m =>
      simp only [splitGo]
      cases ho : firstOcc sep s with
      | none => rfl
      | some i =>
        have hlen := firstOcc_some_le ho
        have hsl : 1 ≤ sep.length := List.length_pos.mpr hsep
        have hk : (s.drop (i + sep.length)).length ≤ k := by
          rw [List.length_drop]; omega
        have hm : (s.drop (i + sep.length)).length ≤ m := by
          rw [List.length_drop]; omega
        exact congrArg (List.cons (s.take i)) (ih m _ hk hm)

theorem splitOnL_eq_none {sep s : List Char}
    (h : firstOcc sep s = none) : splitOnL sep s = [s] := by
  unfold splitOnL
  cases hl : s.length with
  | zero => rfl
  | succ n => simp [splitGo, h]

theorem splitOnL_eq_some {sep s : List Char} {i : Nat} (hsep : sep ≠ [])
    (h : firstOcc sep s = some i) :
    splitOnL sep s = s.take i :: splitOnL sep (s.drop (i + sep.length)) := by
  unfold splitOnL
  cases hl : s.length with
  | zero =>
    have hs : s = [] := List.length_eq_zero.mp hl
    subst hs
    rw [firstOcc, isPrefixL_nil_false hsep] at h
    simp at h
  | succ n =>
    simp only [splitGo, h]
    have hlen := firstOcc_some_le h
    have hsl : 1 ≤ sep.length := List.length_pos.mpr hsep
    have hd : (s.drop (i + sep.length)).length ≤ n := by
      rw [List.length_drop]; omega
    rw [splitGo_congr hsep n (s.drop (i + sep.length)).length _ hd le_rfl]

theorem boxMarker_ne_nil : boxMarker ≠ [] := by decide

/-- Shared characterization of the locator recognizer: when the scanned
text contains the marker, the navigated identifier is the region between
the first occurrence of the marker and the next one (or the whole
remainder when the marker does not occur again). -/
theorem decode_contains_eq_extract {s : List Char}
    (h : containsL boxMarker s = true) :
    decodeScan s = extractBetween boxMarker s := by
  obtain ⟨i, hi⟩ := Option.isSome_iff_exists.mp h
  unfold decodeScan onScanSuccess
  rw [if_pos h]
  rw [splitOnL_eq_some boxMarker_ne_nil hi]
  unfold extractBetween
  rw [hi]
  cases hr : firstOcc boxMarker (s.drop (i + boxMarker.length)) with
  | none =>
    rw [splitOnL_eq_none hr]
    simp [hr]
  | some j =>
    rw [splitOnL_eq_some boxMarker_ne_nil hr]
    simp [hr]

theorem firstOcc_eq_none_of {sep s : List Char}
    (h : ∀ j, isPrefixL sep (s.drop j) = false) : firstOcc sep s = none := by
  cases hf : firstOcc sep s with
  | none => rfl
  | some i =>
    have hm := firstOcc_mem hf
    rw [h i] at hm
    cases hm

theorem drop_append_le {a b : List Char} {j : Nat} (h : j ≤ a.length) :
    (a ++ b).drop j = a.drop j ++ b := by
  rw [List.drop_append_eq_append_drop]
  have hz : j - a.length = 0 := by omega
  rw [hz, List.drop_zero]

theorem drop_append_add {a : List Char} (b : List Char) (m : Nat) :
    (a ++ b).drop (a.length + m) = b.drop m := by
  rw [List.drop_append_eq_append_drop]
  rw [List.drop_eq_nil_of_le (by omega)]
  simp

theorem boxMarker_length : boxMarker.length = 5 := by decide

theorem hexChunk_chars {n : Nat} {s t : List Char} (h : hexChunk n s = some t) :
    ∀ c ∈ s, isHexDigit c = true ∨ c ∈ t := by
  induction n generalizing s with
  | zero =>
    cases h
    intro c hc
    exact Or.inr hc
  | succ k ih =>
    cases s with
    | nil => exact absurd h (by simp [hexChunk])
    | cons c0 s0 =>
      simp only [hexChunk] at h
      split at h
      · intro c hc
        rcases List.mem_cons.mp hc with rfl | hc2
        · exact Or.inl ‹isHexDigit c = true›
        · exact ih h c hc2
      · exact absurd h (by simp)

theorem expectChar_chars {ch : Char} {s t : List Char}
    (h : expectChar ch s = some t) : ∀ c ∈ s, c = ch ∨ c ∈ t := by
  cases s with
  | nil => exact absurd h (by simp [expectChar])
  | cons d s0 =>
    simp only [expectChar] at h
    split at h
    · cases h
      intro c hc
      rcases List.mem_cons.mp hc with rfl | hc2
      · exact Or.inl ‹c = ch›
      · exact Or.inr hc2
    · exact absurd h (by simp)

theorem isUUID_chars {s : List Char} (h : isUUID s = true) :
    ∀ c ∈ s, isHexDigit c = true ∨ c = '-' := by
  rw [isUUID, beq_iff_eq] at h
  rw [Option.bind_eq_some] at h
  obtain ⟨t8, h, hc9⟩ := h
  rw [Option.bind_eq_some] at h
  obtain ⟨t7, h, hc8⟩ := h
  rw [Option.bind_eq_some] at h
  obtain ⟨t6, h, hc7⟩ := h
  rw [Option.bind_eq_some] at h
  obtain ⟨t5, h, hc6⟩ := h
  rw [Option.bind_eq_some] at h
  obtain ⟨t4, h, hc5⟩ := h
  rw [Option.bind_eq_some] at h
  obtain ⟨t3, h, hc4⟩ := h
  rw [Option.bind_eq_some] at h
  obtain ⟨t2, h, hc3⟩ := h
  rw [Option.bind_eq_some] at h
  obtain ⟨t1, hc1, hc2⟩ := h
  intro c hc
  rcases hexChunk_chars hc1 c hc with hx | hm
  · exact Or.inl hx
  rcases expectChar_chars hc2 c hm with rfl | hm
  · exact Or.inr rfl
  rcases hexChunk_chars hc3 c hm with hx | hm
  · exact Or.inl hx
  rcases expectChar_chars hc4 c hm with rfl | hm
  · exact Or.inr rfl
  rcases hexChunk_chars hc5 c hm with hx | hm
  · exact Or.inl hx
  rcases expectChar_chars hc6 c hm with rfl | hm
  · exact Or.inr rfl
  rcases hexChunk_chars hc7 c hm with hx | hm
  · exact Or.inl hx
  rcases expectChar_chars hc8 c hm with rfl | hm
  · exact Or.inr rfl
  rcases hexChunk_chars hc9 c hm with hx | hm
  · exact Or.inl hx
  cases hm

theorem no_marker_in_uuid {id : List Char} (h : isUUID id = true) :
    ∀ j, isPrefixL boxMarker (id.drop j) = false := by
  intro j
  cases hd : id.drop j with
  | nil => exact isPrefixL_nil_false boxMarker_ne_nil
  | cons c t =>
    have hc : c ∈ id := List.drop_subset j id (hd ▸ List.mem_cons_self c t)
    have hne : ('/' : Char) ≠ c := by
      rcases isUUID_chars h c hc with hx | hx
      · intro he
        rw [← he] at hx
        simp [isHexDigit] at hx
      · intro he
        rw [← he] at hx
        cases hx
    have hbm : boxMarker = '/' :: str r"box/" := by decide
    rw [hbm]
    simp [isPrefixL, hne]

theorem no_marker_before_boundary {origin id : List Char}
    (h2 : containsL boxMarker (origin ++ str r"/box") = false) :
    ∀ j, j < origin.length →
      isPrefixL boxMarker ((generateQRCodeUrl id origin).drop j) = false := by
  intro j hj
  have hsplit : generateQRCodeUrl id origin =
      (origin ++ str r"/box") ++ ('/' :: id) := by
    unfold generateQRCodeUrl
    have hbm : boxMarker = str r"/box" ++ ['/'] := by decide
    rw [hbm]
    simp
  rw [Bool.eq_false_iff]
  intro htrue
  rw [hsplit] at htrue
  have hjA : j ≤ (origin ++ str r"/box").length := by
    rw [List.length_append]
    omega
  rw [drop_append_le hjA] at htrue
  have hlen : boxMarker.length ≤ ((origin ++ str r"/box").drop j).length := by
    rw [boxMarker_length, List.length_drop, List.length_append]
    have : (str r"/box").length = 4 := by decide
    omega
  have hpfxA := isPrefixL_append_left htrue hlen
  have hsome := firstOcc_isSome_of_pfx hpfxA
  rw [containsL] at h2
  rw [h2] at hsome
  cases hsome

theorem firstOcc_encode (origin id : List Char)
    (h2 : containsL boxMarker (origin ++ str r"/box") = false) :
    firstOcc boxMarker (generateQRCodeUrl id origin) = some origin.length := by
  apply firstOcc_eq_some_of
  · have hassoc : generateQRCodeUrl id origin = origin ++ (boxMarker ++ id) := by
      unfold generateQRCodeUrl
      simp
    rw [hassoc, List.drop_left]
    exact isPrefixL_append_self boxMarker id
  · exact no_marker_before_boundary h2

/-- Claim C1 (amended): for every identifier of the canonical
hyphen-delimited hexadecimal shape and every origin in which the `/box/`
marker does not occur even at the concatenation boundary (in particular
every `window.location.origin`-shaped origin whose authority is not the
bare host `box`), decoding the locator built by encode yields the
identifier again. -/
theorem claim1_codec_round_trip (id origin : List Char)
    (h1 : isUUID id = true)
    (h2 : containsL boxMarker (origin ++ str r"/box") = false) :
    decodeScan (generateQRCodeUrl id origin) = some id := by
  have hocc := firstOcc_encode origin id h2
  have hcontains : containsL boxMarker (generateQRCodeUrl id origin) = true := by
    rw [containsL, hocc]
    rfl
  unfold decodeScan onScanSuccess
  rw [if_pos hcontains]
  rw [splitOnL_eq_some boxMarker_ne_nil hocc]
  have hdrop : (generateQRCodeUrl id origin).drop
      (origin.length + boxMarker.length) = id := by
    unfold generateQRCodeUrl
    rw [show origin ++ boxMarker ++ id = origin ++ (boxMarker ++ id) by simp]
    rw [drop_append_add, List.drop_left]
  rw [hdrop]
  rw [splitOnL_eq_none (firstOcc_eq_none_of (no_marker_in_uuid h1))]
  rfl

/-- Claim C1 witness: a concrete round trip through encode and decode. -/
theorem claim1_codec_round_trip_witness :
    decodeScan (generateQRCodeUrl (str r"12345678-1234-1234-1234-123456789abc")
      (str r"https://example.local")) =
      some (str r"12345678-1234-1234-1234-123456789abc") :=
  claim1_codec_round_trip _ _ (by decide) (by decide)

/-- Claim C1 counterexample: the origin `http://box` has the shape of a
`window.location.origin` value (host `box`), the identifier is canonical,
yet decoding the encoded locator does not return the identifier — the
split finds the marker inside `://box` ++ `/box/` before the appended one. -/
theorem claim1_counterexample :
    windowOriginShape (str r"http://box") = true ∧
    isUUID (str r"12345678-1234-1234-1234-123456789abc") = true ∧
    decodeScan (generateQRCodeUrl (str r"12345678-1234-1234-1234-123456789abc")
        (str r"http://box")) ≠
      some (str r"12345678-1234-1234-1234-123456789abc") := by
  refine ⟨by decide, by decide, ?_⟩
  decide

/-- Claim C9: for every scanned text containing the `/box/` marker, the
identifier the decoder navigates to is the region between the first
occurrence of the marker and the next non-overlapping occurrence, or the
entire remainder when the marker occurs only once. -/
theorem claim9_split_extraction (s : List Char)
    (h : containsL boxMarker s = true) :
    decodeScan s = extractBetween boxMarker s :=
  decode_contains_eq_extract h

/-- Claim C9 witness: a text whose post-marker region itself contains the
marker decodes to only the part before the second marker. -/
theorem claim9_split_extraction_witness :
    decodeScan (str r"https://h/box/abc/box/def") =
      extractBetween boxMarker (str r"https://h/box/abc/box/def") ∧
    extractBetween boxMarker (str r"https://h/box/abc/box/def") =
      some (str r"abc") :=
  ⟨claim9_split_extraction _ (by decide), by decide⟩

/-- Claim C4 (amended): the decoder applies the locator recognizer first,
then the bare-identifier recognizer, and rejects (no navigation, no
exception — the function is total) when neither matches; however the scan
handler closes the scanner dialog after every scan, including rejected
ones, so rejection is not entirely free of state change. -/
theorem claim4_decode_recognizers (s : List Char) :
    (containsL boxMarker s = true → decodeScan s = extractBetween boxMarker s) ∧
    (containsL boxMarker s = false → isUUID s = true → decodeScan s = some s) ∧
    (containsL boxMarker s = false → isUUID s = false → decodeScan s = none) ∧
    (onScanSuccess s).close = true := by
  refine ⟨fun h => decode_contains_eq_extract h, fun h1 h2 => ?_,
    fun h1 h2 => ?_, ?_⟩
  · unfold decodeScan onScanSuccess
    rw [if_neg (by simp [h1]), if_pos h2]
  · unfold decodeScan onScanSuccess
    rw [if_neg (by simp [h1]), if_neg (by simp [h2])]
  · unfold onScanSuccess
    by_cases hc : containsL boxMarker s = true
    · rw [if_pos hc]
    · rw [if_neg hc]
      by_cases hu : isUUID s = true
      · rw [if_pos hu]
      · rw [if_neg hu]

/-- Claim C4 witness: a text matched by neither recognizer is rejected. -/
theorem claim4_decode_recognizers_witness :
    decodeScan (str r"xyz") = none :=
  (claim4_decode_recognizers (str r"xyz")).2.2.1 (by decide) (by decide)

/-- Claim C4 counterexample: scanning text that both recognizers reject
produces no navigation, yet the handler still closes the scanner dialog —
a state change, contradicting the claim's "no state change". -/
theorem claim4_counterexample :
    decodeScan (str r"hello") = none ∧
    (onScanSuccess (str r"hello")).close = true :=
  ⟨by decide, by decide⟩

/-- Claim C2: evaluation of the translated highlighter at the failing
input — the query `(` leaves the literal fragment (the interpolated
pattern `((` is an invalid regex, so the JS RegExp constructor throws). -/
theorem claim2_highlight_throw_eval :
    highlightMatch (str r"abc") (str r"(") = Except.error () := rfl

/-- Claim C7: at the failing input the query `..` leaves the literal
fragment (the dots are regex metacharacters, so the source does not match
them literally), while the claim's own concrete example, whose query is
metacharacter-free, evaluates exactly as stated. -/
theorem claim7_literal_highlight_eval :
    highlightMatch (str r"a..b") (str r"..") = Except.error () ∧
    highlightMatch (str r"Garage Tools") (str r"tool") =
      Except.ok [(str r"Garage ", false), (str r"Tool", true),
        (str r"s", false)] :=
  ⟨rfl, rfl⟩

/-- Claim C8: the inline-edit save path sends quantity 0 (below the
invariant's lower bound of 1) for the input string `0`, while the
add-item path coerces the same input to 1. -/
theorem claim8_update_quantity_eval :
    updateItemQuantity (str r"0") = some 0 ∧
    addItemQuantity (str r"0") = 1 :=
  ⟨rfl, rfl⟩

theorem scoreList_item_mem {α : Type} {fields : List (α → Option (List Char))}
    {q : List Char} {e : Scored α} :
    ∀ {i : Nat} {recs : List α}, e ∈ scoreList fields q i recs →
      e.item ∈ recs ∧ e.score = recScore fields q e.item := by
  intro i recs
  induction recs generalizing i with
  | nil => intro h; cases h
  | cons r rs ih =>
    intro h
    rcases List.mem_cons.mp h with rfl | h2
    · exact ⟨List.mem_cons_self r rs, rfl⟩
    · obtain ⟨hm, hs⟩ := ih h2
      exact ⟨List.mem_cons_of_mem r hm, hs⟩

theorem scoreList_mem_of {α : Type} {fields : List (α → Option (List Char))}
    {q : List Char} {r : α} :
    ∀ {i : Nat} {recs : List α}, r ∈ recs →
      ∃ e ∈ scoreList fields q i recs,
        e.item = r ∧ e.score = recScore fields q r := by
  intro i recs
  induction recs generalizing i with
  | nil => intro h; cases h
  | cons r0 rs ih =>
    intro h
    rcases List.mem_cons.mp h with rfl | h2
    · exact ⟨⟨r, i, recScore fields q r⟩,
        List.mem_cons_self _ _, rfl, rfl⟩
    · obtain ⟨e, he, h3, h4⟩ := ih h2
      exact ⟨e, List.mem_cons_of_mem _ he, h3, h4⟩

theorem fuseSearch_mem {α : Type} (fields : List (α → Option (List Char)))
    (t : ℚ) (q : List Char) (recs : List α) (r : α) :
    r ∈ (fuseSearch fields t q recs).map (fun e => e.item) ↔
      r ∈ recs ∧ recScore fields q r ≤ t := by
  unfold fuseSearch
  rw [List.mem_map]
  constructor
  · rintro ⟨e, he, rfl⟩
    rw [List.mem_insertionSort, List.mem_filter] at he
    obtain ⟨hel, ht⟩ := he
    obtain ⟨hm, hs⟩ := scoreList_item_mem hel
    exact ⟨hm, hs ▸ of_decide_eq_true ht⟩
  · rintro ⟨hm, hs⟩
    obtain ⟨e, he, hitem, hscore⟩ := scoreList_mem_of hm
    refine ⟨e, ?_, hitem⟩
    rw [List.mem_insertionSort, List.mem_filter]
    refine ⟨he, decide_eq_true ?_⟩
    rw [hscore]
    exact hs

/-- Claim C3 (amended): an empty query returns every record of either
collection in its original order; whitespace-only queries are not
special-cased by the code and go through the fuzzy matcher instead. -/
theorem claim3_empty_query_total :
    (∀ boxes : List Box, filterBoxes boxes [] [] = boxes) ∧
    (∀ items : List Item, filterItems items [] = items) :=
  ⟨fun _ => rfl, fun _ => rfl⟩

/-- Claim C3 counterexample: a whitespace-only query does not return every
record — the box named `Kitchen` is filtered out because the query goes
to the fuzzy matcher, whose score for a lone space against `Kitchen` is
far above the threshold. -/
theorem claim3_counterexample :
    filterBoxes [⟨str r"b2", str r"Kitchen", none, none⟩] (str r" ") [] =
      ([] : List Box) ∧
    filterBoxes [⟨str r"b2", str r"Kitchen", none, none⟩] (str r" ") [] ≠
      [⟨str r"b2", str r"Kitchen", none, none⟩] :=
  ⟨by decide, by decide⟩

/-- Claim C5 (amended): the callers configure the matcher with threshold
0.4 (not the design default 0.6): for every collection and non-empty
query, exactly the records whose score exceeds 0.4 are excluded, and the
records scoring at most 0.4 are retained. -/
theorem claim5_threshold (q : List Char) (hq : q ≠ []) :
    (∀ (boxes : List Box) (b : Box),
      b ∈ filterBoxes boxes q [] ↔
        b ∈ boxes ∧ recScore boxFields q b ≤ mkRat 2 5) ∧
    (∀ (items : List Item) (it : Item),
      it ∈ filterItems items q ↔
        it ∈ items ∧ recScore itemFields q it ≤ mkRat 2 5) := by
  have hne : q.isEmpty = false := by
    cases q with
    | nil => exact absurd rfl hq
    | cons c cs => rfl
  constructor
  · intro boxes b
    show b ∈ filterBoxes boxes q [] ↔ _
    unfold filterBoxes searchStage
    simp only [hne, Bool.false_eq_true, if_false, List.isEmpty_nil, if_true]
    exact fuseSearch_mem boxFields (mkRat 2 5) q boxes b
  · intro items it
    unfold filterItems
    simp only [hne, Bool.false_eq_true, if_false]
    exact fuseSearch_mem itemFields (mkRat 2 5) q items it

/-- Claim C5 witness: a record scoring below 0.4 is retained. -/
theorem claim5_threshold_witness :
    (⟨str r"b1", str r"abc", none, none⟩ : Box) ∈
      filterBoxes [⟨str r"b1", str r"abc", none, none⟩] (str r"ab") [] :=
  ((claim5_threshold (str r"ab") (by decide)).1
      [⟨str r"b1", str r"abc", none, none⟩] _).mpr ⟨by decide, by decide⟩

/-- Claim C5 counterexample: a record whose score is 0.5 — below the 60%
bound the claim names, so the claim says it is retained — is excluded by
the code's threshold of 0.4. -/
theorem claim5_counterexample :
    recScore boxFields (str r"ab")
        (⟨str r"b1", str r"ax", none, none⟩ : Box) < mkRat 3 5 ∧
    filterBoxes [(⟨str r"b1", str r"ax", none, none⟩ : Box)]
        (str r"ab") [] = [] :=
  ⟨by decide, by decide⟩

/-- Claim C6: the matcher's output is ordered by ascending score, ties are
broken by the records' original collection positions, and the result of
two calls with identical inputs is identical (the matcher is a pure
function of its arguments). -/
theorem claim6_ordering {α : Type} (fields : List (α → Option (List Char)))
    (t : ℚ) (q : List Char) (recs : List α) (i j : Nat)
    (hi : i < (fuseSearch fields t q recs).length)
    (hj : j < (fuseSearch fields t q recs).length)
    (hij : i < j) :
    ((fuseSearch fields t q recs).get ⟨i, hi⟩).score ≤
      ((fuseSearch fields t q recs).get ⟨j, hj⟩).score ∧
    (((fuseSearch fields t q recs).get ⟨i, hi⟩).score =
        ((fuseSearch fields t q recs).get ⟨j, hj⟩).score →
      ((fuseSearch fields t q recs).get ⟨i, hi⟩).idx ≤
        ((fuseSearch fields t q recs).get ⟨j, hj⟩).idx) ∧
    fuseSearch fields t q recs = fuseSearch fields t q recs := by
  have hsorted : List.Sorted scoredLE (fuseSearch fields t q recs) :=
    List.sorted_insertionSort scoredLE _
  have hrel := hsorted.rel_get_of_lt
    (show (⟨i, hi⟩ : Fin (fuseSearch fields t q recs).length) < ⟨j, hj⟩ from hij)
  rcases hrel with hlt | ⟨heq, hidx⟩
  · exact ⟨le_of_lt hlt, fun he => absurd he (ne_of_lt hlt), rfl⟩
  · exact ⟨le_of_eq heq, fun _ => hidx, rfl⟩

/-- Claim C6 witness: on a concrete two-box collection the first result's
score is at most the second result's score. -/
theorem claim6_ordering_witness :
    ((fuseSearch boxFields (mkRat 2 5) (str r"abcde")
        [⟨str r"b1", str r"abcdx", none, none⟩,
         ⟨str r"b2", str r"abcde", none, none⟩]).get ⟨0, by decide⟩).score ≤
      ((fuseSearch boxFields (mkRat 2 5) (str r"abcde")
        [⟨str r"b1", str r"abcdx", none, none⟩,
         ⟨str r"b2", str r"abcde", none, none⟩]).get ⟨1, by decide⟩).score :=
  (claim6_ordering boxFields (mkRat 2 5) (str r"abcde") _ 0 1
    (by decide) (by decide) (by decide)).1

/-- Claim C10: with a non-empty location filter, the box list is exactly
the current search-stage list filtered to the boxes whose location is
present and contains the filter case-insensitively (so order is
preserved), and every box without a location is excluded. -/
theorem claim10_location_filter (boxes : List Box) (q loc : List Char)
    (h : loc ≠ []) :
    filterBoxes boxes q loc =
      (searchStage boxes q).filter (fun b => locMatches b loc) ∧
    ∀ b : Box, b.location = none → b ∉ filterBoxes boxes q loc := by
  have hne : loc.isEmpty = false := by
    cases loc with
    | nil => exact absurd rfl h
    | cons c cs => rfl
  have hfe : filterBoxes boxes q loc =
      (searchStage boxes q).filter (fun b => locMatches b loc) := by
    unfold filterBoxes
    simp only [hne, Bool.false_eq_true, if_false]
  refine ⟨hfe, fun b hb hmem => ?_⟩
  rw [hfe, List.mem_filter] at hmem
  obtain ⟨_, hl⟩ := hmem
  simp [locMatches, hb] at hl

/-- Claim C10 witness: a box without a location is dropped by a non-empty
location filter. -/
theorem claim10_location_filter_witness :
    filterBoxes [⟨str r"b1", str r"Tools", none, none⟩] [] (str r"gar") =
      [] := by
  rw [(claim10_location_filter [⟨str r"b1", str r"Tools", none, none⟩] []
    (str r"gar") (by decide)).1]
  decide
